import Mathlib

set_option linter.unusedVariables false
set_option maxRecDepth 1000000

/-! Verification of the natural-language specification of
`src/pyxirr/pure.py` against the code: the secant root solver `secant`, the
net-present-value evaluator `xnpv` and the orchestrator `xirr`.

Embedding conventions.  Python floats are embedded as exact scalars of a
linear ordered field: the solver is stated over an arbitrary
`LinearOrderedField` (instantiated at `ℚ` for concrete evaluation and at
`ℝ`, where the `**` operator of `xnpv` is `Real.rpow`).  A Python callable
may carry hidden state, so the objective handed to the solver is modelled as
`f : ℕ → F → F`, the first argument counting the calls made to the objective
so far; a pure objective ignores it.  Dates are embedded as integer day
numbers: subtracting two `datetime.date` values and taking `.days` is
subtraction in `ℤ`.  Fallible paths are explicit: `secant` returns a normal
value (`Option`), the `ConvergenceFailed("secant stalled")` exception, or
the `ZeroDivisionError` Python raises when `f_b_n - f_a_n == 0`. -/

/-- Outcome of one call of `secant` (`src/pyxirr/pure.py`): a normal return
(`None` or a number), the `ConvergenceFailed("secant stalled")` exception
raised by the stall check, or the `ZeroDivisionError` that Python raises
when the secant denominator `f_b_n - f_a_n` is zero. -/
inductive SecantResult (F : Type) where
  | ret : Option F → SecantResult F
  | stallDetected : SecantResult F
  | divisionByZero : SecantResult F
deriving DecidableEq

/-- Map a function over the returned value of a `SecantResult`. -/
def SecantResult.map {α β : Type} (g : α → β) : SecantResult α → SecantResult β
  | .ret o => .ret (o.map g)
  | .stallDetected => .stallDetected
  | .divisionByZero => .divisionByZero

variable {F : Type} [LinearOrderedField F]

/-- The x intercept `m_n = a_n - f_a_n * (b_n - a_n) / (f_b_n - f_a_n)` of
the secant line (`pure.py`, line 54). -/
def secantEstimate (aN bN faN fbN : F) : F :=
  aN - faN * (bN - aN) / (fbN - faN)

/-- One iteration of the `for n in range(1, N + 1)` loop of `secant`
(`pure.py`, lines 50-74), at iteration number `n` with state
`(a_n, b_n, prev_m_n)`: either the loop terminates here (`Sum.inl` carries
the produced `SecantResult`) or it continues with the state for iteration
`n + 1` (`Sum.inr`).  When iteration `n` starts the objective has been
called `3 * n - 1` times (two calls in the initial sign check, three per
earlier iteration), which fixes the call indices passed to `f`. -/
def secantIter (f : ℕ → F → F) (epsY epsX : F) (n : ℕ) :
    F × F × Option F → SecantResult F ⊕ (F × F × Option F)
  | (aN, bN, prev) =>
    let faN := f (3 * n - 1) aN
    let fbN := f (3 * n) bN
    if fbN - faN = 0 then .inl .divisionByZero
    else
      let mN := secantEstimate aN bN faN fbN
      let fmN := f (3 * n + 1) mN
      -- `if n % 100 == 0`: record `m_n` at the first checkpoint, afterwards
      -- compare against the recorded value and raise on equality.
      let checkpoint : Option (Option F) :=
        if n % 100 = 0 then
          match prev with
          | none => some (some mN)
          | some p => if p = mN then none else some (some p)
        else some prev
      match checkpoint with
      | none => .inl .stallDetected
      | some prev' =>
        if |bN - aN| < epsX then .inl (.ret (some mN))
        else if |fmN| < epsY then .inl (.ret (some mN))
        else if faN * fmN < 0 then .inr (aN, mN, prev')
        else if fbN * fmN < 0 then .inr (mN, bN, prev')
        else .inl (.ret none)

/-- The `for n in range(1, N + 1)` loop of `secant`: iterate `secantIter`
with `n` counting up and `fuel = N - n + 1` iterations remaining; an
exhausted range returns `None`. -/
def secantGo (f : ℕ → F → F) (epsY epsX : F) :
    ℕ → ℕ → F × F × Option F → SecantResult F
  | _, 0, _ => .ret none
  | n, fuel + 1, s =>
    match secantIter f epsY epsX n s with
    | .inl r => r
    | .inr s' => secantGo f epsY epsX (n + 1) fuel s'

/-- `secant(f, a, b, N, eps_y=1e-6, eps_x=1e-6)` from `pure.py`, lines
12-75.  The initial check `f(a) * f(b) >= 0` returns `None`; otherwise the
iteration loop runs with `n` from `1` to `N` starting from the interval
`[a, b]` with `prev_m_n` unset. -/
def secant (f : ℕ → F → F) (a b : F) (N : ℕ) (epsY epsX : F) : SecantResult F :=
  if f 0 a * f 1 b ≥ 0 then .ret none
  else secantGo f epsY epsX 1 N (a, b, none)

/-- `secantIter` viewed as a state transformer that may halt: the state at the
start of iteration `n + 1`, or `none` when iteration `n` leaves the loop in
any way (tolerance return, stall, division by zero, or the
inconsistent-signs exit). -/
def secantStep (f : ℕ → F → F) (epsY epsX : F) (n : ℕ)
    (s : F × F × Option F) : Option (F × F × Option F) :=
  match secantIter f epsY epsX n s with
  | .inl _ => none
  | .inr s' => some s'

/-- The state `(a_k, b_k, prev_m_k)` at the start of iteration `k` of
`secant f a b N epsY epsX`, when the run reaches that iteration without
returning or raising. -/
def secantState (f : ℕ → F → F) (a b : F) (N : ℕ) (epsY epsX : F) :
    ℕ → Option (F × F × Option F)
  | 0 => none
  | 1 =>
    if f 0 a * f 1 b ≥ 0 then none
    else if 1 ≤ N then some (a, b, none) else none
  | k + 2 =>
    if k + 2 ≤ N then
      (secantState f a b N epsY epsX (k + 1)).bind (secantStep f epsY epsX (k + 1))
    else none

/-- The secant estimate `m_k` computed at iteration `k` of
`secant f a b N epsY epsX`, when the run reaches iteration `k` and the
secant denominator there is nonzero. -/
def secantIterM (f : ℕ → F → F) (a b : F) (N : ℕ) (epsY epsX : F) (k : ℕ) :
    Option F :=
  (secantState f a b N epsY epsX k).bind fun s =>
    if f (3 * k) s.2.1 - f (3 * k - 1) s.1 = 0 then none
    else some (secantEstimate s.1 s.2.1 (f (3 * k - 1) s.1) (f (3 * k) s.2.1))

/-- Comparison by date used by `sorted(cash_flow, key=lambda x: x[0])`: a
cash-flow entry is a pair of an integer day number and a real amount. -/
def dateLe (p q : ℤ × ℝ) : Prop := p.1 ≤ q.1

instance : DecidableRel dateLe := fun p q => Int.decLe p.1 q.1

instance : IsTotal (ℤ × ℝ) dateLe := ⟨fun p q => le_total p.1 q.1⟩

instance : IsTrans (ℤ × ℝ) dateLe := ⟨fun _ _ _ h h' => le_trans h h'⟩

/-- Python's `sorted(cash_flow, key=lambda x: x[0])` is a stable sort by the
date component; insertion sort with the non-strict key comparison computes
exactly that stable sort. -/
def sortByDate (cashFlow : List (ℤ × ℝ)) : List (ℤ × ℝ) :=
  List.insertionSort dateLe cashFlow

/-- The `for item in cash_flow` loop of `xnpv` (`pure.py`, lines 103-111),
carrying the accumulator `x`, `last_power` and `last_raised`.  The power
operator `**` on floats is embedded as `Real.rpow`.  When `alreadyDayDiffs`
is false Python computes `(item[0] - t0).days`; with dates embedded as
integer day numbers both branches are the same integer subtraction. -/
noncomputable def xnpvGo (ratePlus1 : ℝ) (t0 : ℤ) (alreadyDayDiffs : Bool) :
    List (ℤ × ℝ) → ℝ → ℝ → ℝ → ℝ
  | [], x, _, _ => x
  | item :: rest, x, lastPower, lastRaised =>
    let newPower : ℝ :=
      if alreadyDayDiffs then ((item.1 - t0 : ℤ) : ℝ) / 365
      else ((item.1 - t0 : ℤ) : ℝ) / 365
    let raised := ratePlus1 ^ (newPower - lastPower) * lastRaised
    xnpvGo ratePlus1 t0 alreadyDayDiffs rest (x + item.2 / raised) newPower raised

/-- `xnpv(rate, cash_flow, sorted_, already_day_diffs)` from `pure.py`,
lines 78-112.  On an empty series Python raises `IndexError` at
`cash_flow[0][0]`; every claim concerns non-empty series only, so the
embedding returns `0` there. -/
noncomputable def xnpv (rate : ℝ) (cashFlow : List (ℤ × ℝ))
    (sorted_ : Bool) (alreadyDayDiffs : Bool) : ℝ :=
  let cf := if sorted_ then cashFlow else sortByDate cashFlow
  match cf with
  | [] => 0
  | first :: rest => xnpvGo (rate + 1) first.1 alreadyDayDiffs (first :: rest) 0 0 1

/-- The normalization performed by `xirr` (`pure.py`, lines 134-138):
convert amounts to floats (the identity here), sort by date, and replace
each date by its day difference from the earliest date `t0`.  On an empty
series Python would raise `IndexError`; the embedding returns `[]`. -/
def xirrNormalize (cashFlow : List (ℤ × ℝ)) : List (ℤ × ℝ) :=
  match sortByDate cashFlow with
  | [] => []
  | (t0, amount) :: rest => ((t0, amount) :: rest).map fun p => (p.1 - t0, p.2)

/-- The objective `lambda r: xnpv(r, cash_flow, True, True)` that `xirr`
hands to the solver (`pure.py`, line 140). -/
noncomputable def xirrF (cashFlow : List (ℤ × ℝ)) : ℝ → ℝ :=
  fun r => xnpv r (xirrNormalize cashFlow) true true

/-- `xirr(cash_flow, guess=Decimal("0.1"), silent=False)` from `pure.py`,
lines 115-144: solve the NPV objective on the bracket `[0.0, 10.0]` with
`2000` iterations and the solver's default tolerances
`eps_y = eps_x = 1e-6`; `ConvergenceFailed` is caught and turned into
`None` exactly when `silent` is true.  The `guess` parameter is accepted
but never read. -/
noncomputable def xirr (cashFlow : List (ℤ × ℝ)) (guess : ℚ) (silent : Bool) :
    SecantResult ℝ :=
  match secant (fun _ => xirrF cashFlow) 0 10 2000 (1 / 1000000) (1 / 1000000) with
  | .stallDetected => if silent then .ret none else .stallDetected
  | r => r

/-- Scaling every amount of a series by the constant `c`. -/
def scaleAmounts (c : ℝ) (cashFlow : List (ℤ × ℝ)) : List (ℤ × ℝ) :=
  cashFlow.map fun p => (p.1, c * p.2)

/-- Cast of a solver state from `ℚ` to `ℝ`. -/
def stateCast (s : ℚ × ℚ × Option ℚ) : ℝ × ℝ × Option ℝ :=
  ((s.1 : ℝ), (s.2.1 : ℝ), s.2.2.map fun q : ℚ => (q : ℝ))

/-- A concrete two-entry series used to exercise the solver: an outflow of
1000 at day 0 and an inflow of 2000 at day 365.  Its NPV objective is
`r ↦ -1000 + 2000 / (r + 1)`, which restricts to `ℚ`, so the full `ℝ` run
of `xirr` can be computed exactly over `ℚ`. -/
def cexSeries : List (ℤ × ℝ) := [(0, -1000), (365, 2000)]

/-- The NPV objective of `cexSeries`, restricted to `ℚ`. -/
def cexObjQ (r : ℚ) : ℚ := -1000 + 2000 / (r + 1)

/-- The value that `xirr` computes on `cexSeries`: the solver exits through
the `eps_y` tolerance at iteration 33 with `m_33 = 1 + 9 / 2 ^ 33`. -/
def cexRoot : ℚ := 8589934601 / 8589934592

/-- Value returned by the `f(b_n)` call of iteration `n` by the crafted
stall objective `stallCexObj`. -/
def stallCexV (k : ℕ) : ℚ := if k = 1 ∨ k = 151 then 1 else 0

/-- A crafted objective for the solver, modelling a stateful Python callable
that answers by call index (and ignores its argument): the two initial sign
checks get `-1` and `1`; within iteration `n` the `f(a_n)` call (index
`3n - 1`) gets `-1`, the `f(b_n)` call (index `3n`) gets `stallCexV n`, and
the `f(m_n)` call (index `3n + 1`) gets `1`.  Started on `[0, 4]` this keeps
`a_n = 0` and produces the estimates `m_n = 2` for `n ≤ 150` and `m_n = 1`
for `n ≥ 151`, so the estimates at the consecutive checkpoints 200 and 300
coincide while differing from the one recorded at iteration 100. -/
def stallCexObj (c : ℕ) (_ : ℚ) : ℚ :=
  if c = 0 then -1
  else if c = 1 then 1
  else if c % 3 = 2 then -1
  else if c % 3 = 0 then stallCexV (c / 3)
  else 1

/-- A small objective (by call index, ignoring its argument) whose single
iteration exercises the inconsistent-signs exit: `f(a_1) = 1`,
`f(b_1) = 2`, `f(m_1) = 1`, so both bracket products are positive. -/
def c4Obj (c : ℕ) (_ : ℚ) : ℚ := if c = 3 then 2 else 1

/-- Like `stallCexObj` but with constant estimates `m_n = 2` for every `n`,
so the estimate at checkpoint 200 equals the one recorded at iteration
100 and the stall check fires. -/
def stallWitObj (c : ℕ) (_ : ℚ) : ℚ :=
  if c = 0 then -1
  else if c = 1 then 1
  else if c % 3 = 2 then -1
  else if c % 3 = 0 then (if c / 3 = 1 then 1 else 0)
  else 1

/-! The solver is pure field arithmetic, so a run over `ℝ` whose objective
restricts to `ℚ` coincides with the corresponding run over `ℚ`; this lets
concrete runs of `xirr` be computed exactly. -/

theorem ratCast_secantEstimate (a b fa fb : ℚ) :
    secantEstimate (a : ℝ) (b : ℝ) (fa : ℝ) (fb : ℝ) =
      ((secantEstimate a b fa fb : ℚ) : ℝ) := by
  simp only [secantEstimate]
  push_cast
  ring

theorem secantIter_ratCast (f : ℕ → ℝ → ℝ) (fq : ℕ → ℚ → ℚ)
    (hf : ∀ i (q : ℚ), f i (q : ℝ) = ((fq i q : ℚ) : ℝ)) (epsY epsX : ℚ)
    (n : ℕ) (s : ℚ × ℚ × Option ℚ) :
    secantIter f (epsY : ℝ) (epsX : ℝ) n (stateCast s) =
      Sum.map (SecantResult.map fun q : ℚ => (q : ℝ)) stateCast
        (secantIter fq epsY epsX n s) := by
  obtain ⟨a, b, prev⟩ := s
  simp only [stateCast, secantIter, hf, ratCast_secantEstimate, ← Rat.cast_sub,
    ← Rat.cast_mul, ← Rat.cast_abs, Rat.cast_eq_zero, Rat.cast_lt_zero, Rat.cast_lt,
    Rat.cast_inj]
  by_cases hden : fq (3 * n) b - fq (3 * n - 1) a = 0
  · simp [hden, SecantResult.map]
  · simp only [hden, ite_false, if_false]
    set m := secantEstimate a b (fq (3 * n - 1) a) (fq (3 * n) b) with hm
    cases prev with
    | none =>
      by_cases hcp : n % 100 = 0 <;>
        simp [hcp, SecantResult.map, stateCast] <;>
        split_ifs <;>
        simp [SecantResult.map, stateCast]
    | some p =>
      by_cases hcp : n % 100 = 0
      · by_cases hpm : p = m
        · simp [hcp, hpm, SecantResult.map, Rat.cast_inj]
        · simp only [hcp, ite_true, if_true, Option.map_some', Rat.cast_inj, hpm,
            ite_false, if_false]
          split_ifs <;> simp [SecantResult.map, stateCast]
      · simp only [hcp, ite_true, ite_false, if_true, if_false, Option.map_some']
        split_ifs <;> simp [SecantResult.map, stateCast]

theorem secantGo_ratCast (f : ℕ → ℝ → ℝ) (fq : ℕ → ℚ → ℚ)
    (hf : ∀ i (q : ℚ), f i (q : ℝ) = ((fq i q : ℚ) : ℝ)) (epsY epsX : ℚ) :
    ∀ (fuel n : ℕ) (s : ℚ × ℚ × Option ℚ),
      secantGo f (epsY : ℝ) (epsX : ℝ) n fuel (stateCast s) =
        SecantResult.map (fun q : ℚ => (q : ℝ)) (secantGo fq epsY epsX n fuel s) := by
  intro fuel
  induction fuel with
  | zero => intro n s; simp [secantGo, SecantResult.map]
  | succ fuel ih =>
    intro n s
    rw [secantGo, secantGo, secantIter_ratCast f fq hf epsY epsX n s]
    cases hq : secantIter fq epsY epsX n s with
    | inl r => simp [Sum.map]
    | inr s' => simpa [Sum.map] using ih (n + 1) s'

theorem secant_ratCast (f : ℕ → ℝ → ℝ) (fq : ℕ → ℚ → ℚ)
    (hf : ∀ i (q : ℚ), f i (q : ℝ) = ((fq i q : ℚ) : ℝ)) (a b : ℚ) (N : ℕ)
    (epsY epsX : ℚ) :
    secant f (a : ℝ) (b : ℝ) N (epsY : ℝ) (epsX : ℝ) =
      SecantResult.map (fun q : ℚ => (q : ℝ)) (secant fq a b N epsY epsX) := by
  have hcond : (f 0 (a : ℝ) * f 1 (b : ℝ) ≥ 0) ↔ (fq 0 a * fq 1 b ≥ 0) := by
    rw [hf, hf, ge_iff_le, ge_iff_le, ← Rat.cast_mul]
    exact Rat.cast_nonneg
  rw [secant, secant, if_congr hcond rfl rfl]
  by_cases h : fq 0 a * fq 1 b ≥ 0
  · simp [h, SecantResult.map]
  · rw [if_neg h, if_neg h]
    exact secantGo_ratCast f fq hf epsY epsX N 1 (a, b, none)

/-! Relating a full solver run to the per-iteration observers `secantState`
and `secantIterM`. -/

theorem secantGo_of_step (f : ℕ → F → F) (epsY epsX : F) (n fuel : ℕ)
    (s s' : F × F × Option F) (h : secantStep f epsY epsX n s = some s') :
    secantGo f epsY epsX n (fuel + 1) s = secantGo f epsY epsX (n + 1) fuel s' := by
  rw [secantStep] at h
  cases hit : secantIter f epsY epsX n s with
  | inl r => rw [hit] at h; simp at h
  | inr s2 =>
    rw [hit] at h
    obtain rfl := Option.some_inj.mp h
    rw [secantGo, hit]

theorem secantStep_prev (f : ℕ → F → F) (epsY epsX : F) (n : ℕ) (x y p : F)
    (s' : F × F × Option F)
    (h : secantStep f epsY epsX n (x, y, some p) = some s') : s'.2.2 = some p := by
  simp only [secantStep, secantIter] at h
  by_cases hden : f (3 * n) y - f (3 * n - 1) x = 0
  · simp [hden] at h
  · simp only [hden, ite_false, if_false] at h
    by_cases hcp : n % 100 = 0
    · by_cases hpm : p = secantEstimate x y (f (3 * n - 1) x) (f (3 * n) y)
      · simp [hcp, hpm] at h
      · simp only [hcp, hpm, ite_true, ite_false, if_true, if_false] at h
        split_ifs at h <;>
          first
            | (exfalso; simp at h; done)
            | (obtain rfl := Option.some_inj.mp h; rfl)
    · simp only [hcp, ite_false, if_false] at h
      split_ifs at h <;>
        first
          | (exfalso; simp at h; done)
          | (obtain rfl := Option.some_inj.mp h; rfl)

theorem secantStep_not_checkpoint (f : ℕ → F → F) (epsY epsX : F) (n : ℕ)
    (x y : F) (pr : Option F) (s' : F × F × Option F) (hcp : n % 100 ≠ 0)
    (h : secantStep f epsY epsX n (x, y, pr) = some s') : s'.2.2 = pr := by
  simp only [secantStep, secantIter] at h
  by_cases hden : f (3 * n) y - f (3 * n - 1) x = 0
  · simp [hden] at h
  · simp only [hden, hcp, ite_false, if_false] at h
    split_ifs at h <;>
      first
        | (exfalso; simp at h; done)
        | (obtain rfl := Option.some_inj.mp h; rfl)

theorem secantStep_checkpoint_none (f : ℕ → F → F) (epsY epsX : F) (n : ℕ)
    (x y : F) (s' : F × F × Option F) (hcp : n % 100 = 0)
    (h : secantStep f epsY epsX n (x, y, none) = some s') :
    s'.2.2 = some (secantEstimate x y (f (3 * n - 1) x) (f (3 * n) y)) := by
  simp only [secantStep, secantIter] at h
  by_cases hden : f (3 * n) y - f (3 * n - 1) x = 0
  · simp [hden] at h
  · simp only [hden, hcp, ite_true, ite_false, if_true, if_false] at h
    split_ifs at h <;>
      first
        | (exfalso; simp at h; done)
        | (obtain rfl := Option.some_inj.mp h; rfl)

theorem secantState_le (f : ℕ → F → F) (a b : F) (N : ℕ) (epsY epsX : F) :
    ∀ (k : ℕ) (s : F × F × Option F),
      secantState f a b N epsY epsX k = some s → k ≤ N := by
  intro k
  match k with
  | 0 => intro s hs; simp [secantState] at hs
  | 1 => intro s hs; rw [secantState] at hs; split_ifs at hs <;> simp_all
  | k + 2 => intro s hs; rw [secantState] at hs; split_ifs at hs <;> simp_all

theorem secantState_prev_none (f : ℕ → F → F) (a b : F) (N : ℕ) (epsY epsX : F) :
    ∀ k, k ≤ 100 → ∀ s : F × F × Option F,
      secantState f a b N epsY epsX k = some s → s.2.2 = none := by
  intro k
  induction k with
  | zero => intro _ s hs; simp [secantState] at hs
  | succ k ih =>
    cases k with
    | zero =>
      intro _ s hs
      rw [secantState] at hs
      split_ifs at hs <;>
        first
          | (exfalso; simp at hs; done)
          | (obtain rfl := Option.some_inj.mp hs; rfl)
    | succ k =>
      intro hk s hs
      rw [secantState] at hs
      by_cases hN : k + 2 ≤ N
      · rw [if_pos hN] at hs
        obtain ⟨s1, hs1, hstep⟩ := Option.bind_eq_some.mp hs
        have h1 : s1.2.2 = none := ih (by omega) s1 hs1
        obtain ⟨x, y, pr⟩ := s1
        simp only at h1
        subst h1
        exact secantStep_not_checkpoint f epsY epsX (k + 1) x y none s
          (by omega) hstep
      · rw [if_neg hN] at hs; simp at hs

theorem secantIterM_elim (f : ℕ → F → F) (a b : F) (N : ℕ) (epsY epsX : F)
    (k : ℕ) (q : F) (h : secantIterM f a b N epsY epsX k = some q) :
    ∃ x y pr, secantState f a b N epsY epsX k = some (x, y, pr) ∧
      ¬ f (3 * k) y - f (3 * k - 1) x = 0 ∧
      secantEstimate x y (f (3 * k - 1) x) (f (3 * k) y) = q := by
  rw [secantIterM] at h
  obtain ⟨s, hs, h2⟩ := Option.bind_eq_some.mp h
  obtain ⟨x, y, pr⟩ := s
  by_cases hden : f (3 * k) y - f (3 * k - 1) x = 0
  · simp [hden] at h2
  · refine ⟨x, y, pr, hs, hden, ?_⟩
    simp only [hden, ite_false, if_false] at h2
    exact Option.some_inj.mp h2

theorem secant_eq_go_of_state (f : ℕ → F → F) (a b : F) (N : ℕ) (epsY epsX : F) :
    ∀ (k : ℕ) (s : F × F × Option F),
      secantState f a b N epsY epsX k = some s →
      secant f a b N epsY epsX = secantGo f epsY epsX k (N + 1 - k) s := by
  intro k
  induction k with
  | zero => intro s hs; simp [secantState] at hs
  | succ k ih =>
    cases k with
    | zero =>
      intro s hs
      rw [secantState] at hs
      by_cases hpc : f 0 a * f 1 b ≥ 0
      · rw [if_pos hpc] at hs; exact absurd hs (by simp)
      · rw [if_neg hpc] at hs
        by_cases hN : 1 ≤ N
        · rw [if_pos hN] at hs
          obtain rfl := Option.some_inj.mp hs
          rw [secant, if_neg hpc]
          have h1 : N + 1 - 1 = N := by omega
          rw [h1]
        · rw [if_neg hN] at hs; exact absurd hs (by simp)
    | succ k =>
      intro s hs
      rw [secantState] at hs
      by_cases hN : k + 2 ≤ N
      · rw [if_pos hN] at hs
        obtain ⟨s1, hs1, hstep⟩ := Option.bind_eq_some.mp hs
        rw [ih s1 hs1]
        have hfuel : N + 1 - (k + 1) = (N + 1 - (k + 2)) + 1 := by omega
        rw [hfuel]
        exact secantGo_of_step f epsY epsX (k + 1) (N + 1 - (k + 2)) s1 s hstep
      · rw [if_neg hN] at hs; exact absurd hs (by simp)

theorem secantState_prev_eq (f : ℕ → F → F) (a b : F) (N : ℕ) (epsY epsX : F)
    (q : F) (h100 : secantIterM f a b N epsY epsX 100 = some q) :
    ∀ j, 100 < j → ∀ s : F × F × Option F,
      secantState f a b N epsY epsX j = some s → s.2.2 = some q := by
  intro j
  induction j with
  | zero => intro hj; omega
  | succ j ih =>
    intro hj s hs
    cases j with
    | zero => omega
    | succ k =>
      rw [secantState] at hs
      by_cases hN : k + 2 ≤ N
      · rw [if_pos hN] at hs
        obtain ⟨s1, hs1, hstep⟩ := Option.bind_eq_some.mp hs
        rcases Nat.lt_or_ge 100 (k + 1) with hgt | hle
        · have h1 : s1.2.2 = some q := ih (by omega) s1 hs1
          obtain ⟨x, y, pr⟩ := s1
          simp only at h1
          subst h1
          exact secantStep_prev f epsY epsX (k + 1) x y q s hstep
        · have hk : k + 1 = 100 := by omega
          obtain ⟨x, y, pr, hs100, hden, hest⟩ :=
            secantIterM_elim f a b N epsY epsX 100 q h100
          rw [hk] at hs1 hstep
          rw [hs100] at hs1
          obtain rfl := (Option.some_inj.mp hs1).symm
          have hprn : pr = none := by
            have h2 := secantState_prev_none f a b N epsY epsX 100 (le_refl 100)
              (x, y, pr) hs100
            simpa using h2
          subst hprn
          have h3 := secantStep_checkpoint_none f epsY epsX 100 x y s
            (by omega) hstep
          rwa [hest] at h3
      · rw [if_neg hN] at hs; exact absurd hs (by simp)

/-! Closed-form evaluation of the NPV objective on small concrete series. -/

theorem xirrNormalize_pair (a0 a1 : ℝ) :
    xirrNormalize [((0 : ℤ), a0), (365, a1)] = [((0 : ℤ), a0), (365, a1)] := by
  norm_num [xirrNormalize, sortByDate, dateLe]

theorem xirrF_pair (a0 a1 : ℝ) (r : ℝ) :
    xirrF [((0 : ℤ), a0), (365, a1)] r = a0 + a1 / (r + 1) := by
  rw [xirrF, xirrNormalize_pair]
  show xnpvGo (r + 1) 0 true [((0 : ℤ), a0), (365, a1)] 0 0 1 = a0 + a1 / (r + 1)
  rw [xnpvGo, xnpvGo, xnpvGo]
  norm_num [Real.rpow_zero, Real.rpow_one]

theorem xirrF_single (d : ℤ) (a : ℝ) (r : ℝ) : xirrF [(d, a)] r = a := by
  rw [xirrF]
  have hn : xirrNormalize [(d, a)] = [((0 : ℤ), a)] := by
    simp [xirrNormalize, sortByDate, dateLe]
  rw [hn]
  show xnpvGo (r + 1) 0 true [((0 : ℤ), a)] 0 0 1 = a
  rw [xnpvGo, xnpvGo]
  norm_num [Real.rpow_zero]

/-! A concrete two-entry series used to exercise the solver: an outflow of
1000 at day 0 and an inflow of 2000 at day 365.  Its NPV objective is
`r ↦ -1000 + 2000 / (r + 1)`, which restricts to `ℚ`, so the full `ℝ`
run of `xirr` can be computed exactly over `ℚ`. -/

theorem xirrF_cexSeries (q : ℚ) :
    xirrF cexSeries ((q : ℚ) : ℝ) = ((cexObjQ q : ℚ) : ℝ) := by
  rw [cexSeries, xirrF_pair, cexObjQ]
  push_cast
  ring

theorem secant_cexObjQ_eval :
    secant (fun _ => cexObjQ) 0 10 2000 (1 / 1000000) (1 / 1000000) =
      .ret (some cexRoot) := by
  with_unfolding_all rfl

theorem xirr_cexSeries_eval (g : ℚ) (silent : Bool) :
    xirr cexSeries g silent = .ret (some ((cexRoot : ℚ) : ℝ)) := by
  rw [xirr]
  have hb := secant_ratCast (fun _ => xirrF cexSeries) (fun _ => cexObjQ)
    (fun _ q => xirrF_cexSeries q) 0 10 2000 (1 / 1000000) (1 / 1000000)
  rw [secant_cexObjQ_eval] at hb
  norm_num at hb
  rw [hb]
  rfl

/-- The series `cexSeries` with every amount scaled by `1 / 10 ^ 10`. -/
theorem xirrF_cexSeries_scaled (q : ℚ) :
    xirrF (scaleAmounts (1 / 10000000000) cexSeries) ((q : ℚ) : ℝ) =
      (((1 / 10000000000 : ℚ) * cexObjQ q : ℚ) : ℝ) := by
  have hs : scaleAmounts (1 / 10000000000) cexSeries =
      [((0 : ℤ), (1 / 10000000000 : ℝ) * (-1000)), (365, (1 / 10000000000 : ℝ) * 2000)] := by
    simp [scaleAmounts, cexSeries]
  rw [hs, xirrF_pair, cexObjQ]
  push_cast
  ring

theorem secant_cexObjQ_scaled_eval :
    secant (fun _ r => (1 / 10000000000 : ℚ) * cexObjQ r) 0 10 2000
      (1 / 1000000) (1 / 1000000) = .ret (some (11 / 2)) := by
  with_unfolding_all rfl

theorem xirr_cexSeries_scaled_eval (g : ℚ) (silent : Bool) :
    xirr (scaleAmounts (1 / 10000000000) cexSeries) g silent =
      .ret (some (((11 / 2 : ℚ) : ℚ) : ℝ)) := by
  rw [xirr]
  have hb := secant_ratCast (fun _ => xirrF (scaleAmounts (1 / 10000000000) cexSeries))
    (fun _ r => (1 / 10000000000 : ℚ) * cexObjQ r)
    (fun _ q => xirrF_cexSeries_scaled q) 0 10 2000 (1 / 1000000) (1 / 1000000)
  rw [secant_cexObjQ_scaled_eval] at hb
  norm_num at hb
  rw [hb]
  rfl

/-! Facts about the NPV evaluator. -/

theorem xnpvGo_one (t0 : ℤ) (dd : Bool) :
    ∀ (l : List (ℤ × ℝ)) (x lastPower : ℝ),
      xnpvGo 1 t0 dd l x lastPower 1 = x + (l.map Prod.snd).sum := by
  intro l
  induction l with
  | nil => intro x lp; simp [xnpvGo]
  | cons item rest ih =>
    intro x lp
    rw [xnpvGo]
    simp only [ite_self, Real.one_rpow, one_mul, mul_one]
    rw [ih]
    simp only [List.map_cons, List.sum_cons]
    ring

theorem xnpv_zero_rate (cashFlow : List (ℤ × ℝ)) (sorted_ dd : Bool) :
    xnpv 0 cashFlow sorted_ dd = (cashFlow.map Prod.snd).sum := by
  have hgo : ∀ l : List (ℤ × ℝ), xnpv 0 l true dd = (l.map Prod.snd).sum := by
    intro l
    rw [xnpv]
    cases l with
    | nil => simp
    | cons first rest =>
      show xnpvGo (0 + 1) first.1 dd (first :: rest) 0 0 1 = _
      rw [zero_add, xnpvGo_one]
      simp
  cases sorted_ with
  | true => exact hgo cashFlow
  | false =>
    have h1 : xnpv 0 cashFlow false dd = xnpv 0 (sortByDate cashFlow) true dd := by
      rw [xnpv, xnpv]
      rfl
    rw [h1, hgo]
    exact List.Perm.sum_eq ((List.perm_insertionSort dateLe cashFlow).map Prod.snd)

/-! Reordering a key-sorted series inside runs of equal dates does not
change the NPV: within such a run every entry is divided by the same
accumulated discount factor. -/

theorem xnpvGo_swap_block (base : ℝ) (t0 : ℤ) (dd : Bool) :
    ∀ (p : List (ℤ × ℝ)) (h : ℤ × ℝ) (q : List (ℤ × ℝ)),
      (∀ e ∈ p, e.1 = h.1) →
      ∀ (x lp lr : ℝ),
        xnpvGo base t0 dd (p ++ h :: q) x lp lr =
          xnpvGo base t0 dd (h :: (p ++ q)) x lp lr := by
  intro p
  induction p with
  | nil => intro h q _ x lp lr; rfl
  | cons e p ih =>
    intro h q hkeys x lp lr
    have he : e.1 = h.1 := hkeys e (List.mem_cons_self e p)
    have hp : ∀ e' ∈ p, e'.1 = h.1 := fun e' he' => hkeys e' (List.mem_cons_of_mem e he')
    show xnpvGo base t0 dd (e :: (p ++ h :: q)) x lp lr = _
    simp only [xnpvGo]
    rw [ih h q hp]
    simp only [xnpvGo]
    simp only [ite_self, he, sub_self, Real.rpow_zero, one_mul]
    congr 1
    ring

theorem xnpvGo_perm (base : ℝ) (t0 : ℤ) (dd : Bool) :
    ∀ (l₁ l₂ : List (ℤ × ℝ)), l₁.Perm l₂ →
      l₁.Sorted dateLe → l₂.Sorted dateLe →
      ∀ (x lp lr : ℝ),
        xnpvGo base t0 dd l₁ x lp lr = xnpvGo base t0 dd l₂ x lp lr := by
  intro l₁
  induction l₁ with
  | nil =>
    intro l₂ hperm _ _ x lp lr
    rw [← List.Perm.nil_eq hperm]
  | cons h t ih =>
    intro l₂ hperm hs1 hs2 x lp lr
    have hmem : h ∈ l₂ := hperm.mem_iff.mp (List.mem_cons_self h t)
    obtain ⟨p, q, rfl⟩ := List.append_of_mem hmem
    have hsplit := List.pairwise_append.mp hs2
    have hmin : ∀ e ∈ t, dateLe h e := (List.pairwise_cons.mp hs1).1
    have hkeys : ∀ e ∈ p, e.1 = h.1 := by
      intro e hep
      have h1 : dateLe e h := hsplit.2.2 e hep h (List.mem_cons_self h q)
      have h2 : dateLe h e := by
        have he2 : e ∈ h :: t := hperm.mem_iff.mpr (by simp [hep])
        rcases List.mem_cons.mp he2 with rfl | het
        · exact le_refl _
        · exact hmin e het
      exact le_antisymm h1 h2
    rw [xnpvGo_swap_block base t0 dd p h q hkeys]
    have hperm' : t.Perm (p ++ q) :=
      (hperm.trans List.perm_middle).cons_inv
    have hst : t.Sorted dateLe := hs1.of_cons
    have hspq : (p ++ q).Sorted dateLe := by
      refine List.pairwise_append.mpr ⟨hsplit.1, hsplit.2.1.of_cons, ?_⟩
      intro a ha b hb
      exact hsplit.2.2 a ha b (List.mem_cons_of_mem h hb)
    rw [xnpvGo, xnpvGo]
    exact ih (p ++ q) hperm' hst hspq _ _ _

theorem xnpv_perm_sorted (r : ℝ) (dd : Bool) (l₁ l₂ : List (ℤ × ℝ))
    (hperm : l₁.Perm l₂) (hs1 : l₁.Sorted dateLe) (hs2 : l₂.Sorted dateLe) :
    xnpv r l₁ true dd = xnpv r l₂ true dd := by
  cases l₁ with
  | nil => rw [← List.Perm.nil_eq hperm]
  | cons f1 t1 =>
    cases l₂ with
    | nil => exact absurd hperm.symm (by simp)
    | cons f2 t2 =>
      have hk : f1.1 = f2.1 := by
        have h1 : dateLe f1 f2 := by
          have : f2 ∈ f1 :: t1 := hperm.mem_iff.mpr (List.mem_cons_self f2 t2)
          rcases List.mem_cons.mp this with rfl | hin
          · exact le_refl _
          · exact (List.pairwise_cons.mp hs1).1 f2 hin
        have h2 : dateLe f2 f1 := by
          have : f1 ∈ f2 :: t2 := hperm.mem_iff.mp (List.mem_cons_self f1 t1)
          rcases List.mem_cons.mp this with heq | hin
          · rw [heq]; exact le_refl _
          · exact (List.pairwise_cons.mp hs2).1 f1 hin
        exact le_antisymm h1 h2
      rw [xnpv, xnpv]
      show xnpvGo (r + 1) f1.1 dd (f1 :: t1) 0 0 1 =
        xnpvGo (r + 1) f2.1 dd (f2 :: t2) 0 0 1
      rw [hk]
      exact xnpvGo_perm (r + 1) f2.1 dd (f1 :: t1) (f2 :: t2) hperm hs1 hs2 0 0 1

theorem sortByDate_sorted (l : List (ℤ × ℝ)) : (sortByDate l).Sorted dateLe :=
  List.sorted_insertionSort dateLe l

theorem xirrNormalize_perm (l₁ l₂ : List (ℤ × ℝ)) (hperm : l₁.Perm l₂) :
    ∀ r : ℝ, xirrF l₁ r = xirrF l₂ r := by
  intro r
  have hc : (sortByDate l₁).Perm (sortByDate l₂) :=
    (List.perm_insertionSort dateLe l₁).trans
      (hperm.trans (List.perm_insertionSort dateLe l₂).symm)
  rw [xirrF, xirrF]
  rcases hcl : sortByDate l₁ with _ | ⟨⟨t01, a1⟩, c1⟩
  · rw [hcl] at hc
    have : sortByDate l₂ = [] := (List.Perm.nil_eq hc).symm
    rw [xirrNormalize, xirrNormalize, hcl, this]
  · rcases hcl2 : sortByDate l₂ with _ | ⟨⟨t02, a2⟩, c2⟩
    · rw [hcl, hcl2] at hc
      exact absurd hc.symm (by simp)
    · rw [hcl, hcl2] at hc
      have hs1 := sortByDate_sorted l₁
      have hs2 := sortByDate_sorted l₂
      rw [hcl] at hs1
      rw [hcl2] at hs2
      have ht0 : t01 = t02 := by
        have h1 : dateLe (t01, a1) (t02, a2) := by
          have : (t02, a2) ∈ (t01, a1) :: c1 := hc.mem_iff.mpr (List.mem_cons_self _ c2)
          rcases List.mem_cons.mp this with heq | hin
          · rw [heq]; exact le_refl _
          · exact (List.pairwise_cons.mp hs1).1 _ hin
        have h2 : dateLe (t02, a2) (t01, a1) := by
          have : (t01, a1) ∈ (t02, a2) :: c2 := hc.mem_iff.mp (List.mem_cons_self _ c1)
          rcases List.mem_cons.mp this with heq | hin
          · rw [heq]; exact le_refl _
          · exact (List.pairwise_cons.mp hs2).1 _ hin
        exact le_antisymm h1 h2
      rw [xirrNormalize, xirrNormalize, hcl, hcl2]
      subst ht0
      set g : ℤ × ℝ → ℤ × ℝ := fun p => (p.1 - t01, p.2) with hg
      have hd : (((t01, a1) :: c1).map g).Perm (((t01, a2) :: c2).map g) := hc.map g
      have hds1 : (((t01, a1) :: c1).map g).Sorted dateLe := by
        refine List.Pairwise.map g ?_ hs1
        intro u v huv
        exact sub_le_sub_right huv t01
      have hds2 : (((t01, a2) :: c2).map g).Sorted dateLe := by
        refine List.Pairwise.map g ?_ hs2
        intro u v huv
        exact sub_le_sub_right huv t01
      exact xnpv_perm_sorted r true _ _ hd hds1 hds2

/-! Homogeneity of the NPV objective in the amounts. -/

theorem scaleAmounts_cons (c : ℝ) (p : ℤ × ℝ) (l : List (ℤ × ℝ)) :
    scaleAmounts c (p :: l) = (p.1, c * p.2) :: scaleAmounts c l := rfl

theorem xnpvGo_scale (base : ℝ) (t0 : ℤ) (dd : Bool) (c : ℝ) :
    ∀ (l : List (ℤ × ℝ)) (x y lp lr : ℝ), y = c * x →
      xnpvGo base t0 dd (scaleAmounts c l) y lp lr =
        c * xnpvGo base t0 dd l x lp lr := by
  intro l
  induction l with
  | nil =>
    intro x y lp lr hy
    simpa [scaleAmounts, xnpvGo] using hy
  | cons item rest ih =>
    intro x y lp lr hy
    rw [scaleAmounts_cons]
    simp only [xnpvGo]
    exact ih _ _ _ _ (by rw [hy]; ring)

theorem orderedInsert_scale (c : ℝ) (p : ℤ × ℝ) :
    ∀ l : List (ℤ × ℝ),
      List.orderedInsert dateLe (p.1, c * p.2) (scaleAmounts c l) =
        scaleAmounts c (List.orderedInsert dateLe p l) := by
  intro l
  induction l with
  | nil => rfl
  | cons q l ih =>
    rw [scaleAmounts_cons, List.orderedInsert, List.orderedInsert]
    by_cases h : dateLe p q
    · have h' : dateLe (p.1, c * p.2) (q.1, c * q.2) := h
      rw [if_pos h, if_pos h']
      rfl
    · have h' : ¬dateLe (p.1, c * p.2) (q.1, c * q.2) := h
      rw [if_neg h, if_neg h', ih]
      rfl

theorem sortByDate_scale (c : ℝ) :
    ∀ l : List (ℤ × ℝ), sortByDate (scaleAmounts c l) = scaleAmounts c (sortByDate l) := by
  intro l
  induction l with
  | nil => rfl
  | cons p l ih =>
    show List.insertionSort dateLe (scaleAmounts c (p :: l)) = _
    rw [scaleAmounts_cons, List.insertionSort]
    show List.orderedInsert dateLe (p.1, c * p.2) (sortByDate (scaleAmounts c l)) = _
    rw [ih, orderedInsert_scale]
    rfl

theorem xirrNormalize_scale (c : ℝ) (l : List (ℤ × ℝ)) :
    xirrNormalize (scaleAmounts c l) = scaleAmounts c (xirrNormalize l) := by
  rw [xirrNormalize, xirrNormalize, sortByDate_scale]
  rcases hcl : sortByDate l with _ | ⟨⟨t0, a⟩, rest⟩
  · rfl
  · rw [scaleAmounts_cons]
    show ((t0, c * a) :: scaleAmounts c rest).map (fun p => (p.1 - t0, p.2)) =
      scaleAmounts c (((t0, a) :: rest).map fun p => (p.1 - t0, p.2))
    simp [scaleAmounts, List.map_map, Function.comp]

theorem xirrF_scale (c : ℝ) (l : List (ℤ × ℝ)) (r : ℝ) :
    xirrF (scaleAmounts c l) r = c * xirrF l r := by
  rw [xirrF, xirrF, xirrNormalize_scale, xnpv, xnpv]
  rcases hn : xirrNormalize l with _ | ⟨f, rest⟩
  · show (0 : ℝ) = c * 0
    ring
  · rw [scaleAmounts_cons]
    show xnpvGo (r + 1) f.1 true ((f.1, c * f.2) :: scaleAmounts c rest) 0 0 1 =
      c * xnpvGo (r + 1) f.1 true (f :: rest) 0 0 1
    rw [show ((f.1, c * f.2) :: scaleAmounts c rest : List (ℤ × ℝ)) =
          scaleAmounts c (f :: rest) from (scaleAmounts_cons c f rest).symm]
    exact xnpvGo_scale (r + 1) f.1 true c (f :: rest) 0 0 0 1 (by ring)

/-! Scale invariance of the solver when the value tolerance is disabled:
every comparison except `|f(m_n)| < eps_y` is invariant under scaling the
objective by a positive constant. -/

theorem secantEstimate_scale (c : F) (hc : c ≠ 0) (a b fa fb : F) :
    secantEstimate a b (c * fa) (c * fb) = secantEstimate a b fa fb := by
  rw [secantEstimate, secantEstimate]
  by_cases h : fb - fa = 0
  · rw [show c * fb - c * fa = c * (fb - fa) from by ring, h, mul_zero]
    simp
  · congr 1
    rw [show c * fb - c * fa = c * (fb - fa) from by ring,
      show c * fa * (b - a) = c * (fa * (b - a)) from by ring]
    exact mul_div_mul_left _ _ hc

theorem mul_scale_neg_iff (c x y : F) (hc : 0 < c) :
    (c * x) * (c * y) < 0 ↔ x * y < 0 := by
  rw [show (c * x) * (c * y) = (c * c) * (x * y) from by ring]
  constructor
  · intro h
    by_contra hxy
    push_neg at hxy
    exact absurd h (not_lt.mpr (mul_nonneg (le_of_lt (mul_pos hc hc)) hxy))
  · intro h
    exact mul_neg_of_pos_of_neg (mul_pos hc hc) h

theorem mul_scale_nonneg_iff (c x y : F) (hc : 0 < c) :
    0 ≤ (c * x) * (c * y) ↔ 0 ≤ x * y := by
  rw [show (c * x) * (c * y) = (c * c) * (x * y) from by ring]
  constructor
  · intro h
    by_contra hxy
    push_neg at hxy
    exact absurd h (not_le.mpr (mul_neg_of_pos_of_neg (mul_pos hc hc) hxy))
  · intro h
    exact mul_nonneg (le_of_lt (mul_pos hc hc)) h

theorem secantIter_scale (f : ℕ → F → F) (c : F) (hc : 0 < c) (epsX : F) (n : ℕ)
    (s : F × F × Option F) :
    secantIter (fun i x => c * f i x) 0 epsX n s = secantIter f 0 epsX n s := by
  obtain ⟨a, b, prev⟩ := s
  have hc0 : c ≠ 0 := ne_of_gt hc
  have habs : ∀ z : F, (|z| < (0 : F)) = False :=
    fun z => eq_false (not_lt.mpr (abs_nonneg z))
  simp only [secantIter]
  by_cases hden : f (3 * n) b - f (3 * n - 1) a = 0
  · have h1 : c * f (3 * n) b - c * f (3 * n - 1) a = 0 := by
      rw [show c * f (3 * n) b - c * f (3 * n - 1) a =
          c * (f (3 * n) b - f (3 * n - 1) a) from by ring, hden, mul_zero]
    simp [hden, h1]
  · have h1 : ¬(c * f (3 * n) b - c * f (3 * n - 1) a = 0) := by
      rw [show c * f (3 * n) b - c * f (3 * n - 1) a =
          c * (f (3 * n) b - f (3 * n - 1) a) from by ring]
      exact mul_ne_zero hc0 hden
    simp only [hden, h1, ite_false, if_false,
      secantEstimate_scale c hc0, habs,
      mul_scale_neg_iff _ _ _ hc]

theorem secantGo_scale (f : ℕ → F → F) (c : F) (hc : 0 < c) (epsX : F) :
    ∀ (fuel n : ℕ) (s : F × F × Option F),
      secantGo (fun i x => c * f i x) 0 epsX n fuel s =
        secantGo f 0 epsX n fuel s := by
  intro fuel
  induction fuel with
  | zero => intro n s; rfl
  | succ fuel ih =>
    intro n s
    rw [secantGo, secantGo, secantIter_scale f c hc epsX n s]
    cases secantIter f 0 epsX n s with
    | inl r => rfl
    | inr s' => exact ih (n + 1) s'

theorem secant_scale (f : ℕ → F → F) (a b : F) (N : ℕ) (epsX c : F) (hc : 0 < c) :
    secant (fun i x => c * f i x) a b N 0 epsX = secant f a b N 0 epsX := by
  rw [secant, secant]
  have hcond : ((c * f 0 a) * (c * f 1 b) ≥ 0) ↔ (f 0 a * f 1 b ≥ 0) := by
    rw [ge_iff_le, ge_iff_le]
    exact mul_scale_nonneg_iff c _ _ hc
  rw [if_congr hcond rfl rfl]
  by_cases h : f 0 a * f 1 b ≥ 0
  · rw [if_pos h, if_pos h]
  · rw [if_neg h, if_neg h]
    exact secantGo_scale f c hc epsX N 1 (a, b, none)

/-! Bracket invariant: when the endpoint values have opposite signs, the
secant estimate lies strictly inside the interval, so every value returned
by a stopping criterion stays strictly inside the initial bracket. -/

theorem secantEstimate_mem (a b fa fb : F) (hab : a < b) (hfs : fa * fb < 0) :
    fb - fa ≠ 0 ∧ a < secantEstimate a b fa fb ∧ secantEstimate a b fa fb < b := by
  have e1 : secantEstimate a b fa fb - a = fa * (b - a) / (fa - fb) := by
    rw [secantEstimate, show fa - fb = -(fb - fa) from by ring, div_neg]
    ring
  have e2 : b - secantEstimate a b fa fb = (b - a) * fb / (fb - fa) := by
    rw [secantEstimate]
    have hden : fb - fa ≠ 0 := by
      intro h
      rcases mul_neg_iff.mp hfs with ⟨h1, h2⟩ | ⟨h1, h2⟩ <;> nlinarith
    field_simp
    ring
  rcases mul_neg_iff.mp hfs with ⟨hfa, hfb⟩ | ⟨hfa, hfb⟩
  · have hden : fb - fa ≠ 0 := by intro h; nlinarith
    refine ⟨hden, ?_, ?_⟩
    · have hp : 0 < fa * (b - a) / (fa - fb) :=
        div_pos (mul_pos hfa (sub_pos.mpr hab)) (by linarith)
      linarith [e1, hp]
    · have hp : 0 < (b - a) * fb / (fb - fa) :=
        div_pos_iff.mpr (Or.inr ⟨by nlinarith, by linarith⟩)
      linarith [e2, hp]
  · have hden : fb - fa ≠ 0 := by intro h; nlinarith
    refine ⟨hden, ?_, ?_⟩
    · have hp : 0 < fa * (b - a) / (fa - fb) :=
        div_pos_iff.mpr (Or.inr ⟨by nlinarith, by linarith⟩)
      linarith [e1, hp]
    · have hp : 0 < (b - a) * fb / (fb - fa) :=
        div_pos (by nlinarith) (by linarith)
      linarith [e2, hp]

theorem secantGo_mem (f : F → F) (epsY epsX : F) :
    ∀ (fuel n : ℕ) (a b : F) (prev : Option F) (m : F),
      a < b → f a * f b < 0 →
      secantGo (fun _ => f) epsY epsX n fuel (a, b, prev) = .ret (some m) →
      a < m ∧ m < b := by
  intro fuel
  induction fuel with
  | zero =>
    intro n a b prev m _ _ hret
    rw [secantGo] at hret
    exact absurd hret (by simp)
  | succ fuel ih =>
    intro n a b prev m hab hsign hret
    obtain ⟨hden, hma, hmb⟩ := secantEstimate_mem a b (f a) (f b) hab hsign
    have hdn : ¬ f b - f a = 0 := hden
    rw [secantGo] at hret
    simp only [secantIter, hdn, ite_false, if_false] at hret
    set m0 := secantEstimate a b (f a) (f b) with hm0
    have hE : ∀ prev', f a * f m0 < 0 →
        secantGo (fun _ => f) epsY epsX (n + 1) fuel (a, m0, prev') = .ret (some m) →
        a < m ∧ m < b := fun prev' hs hr =>
      (ih (n + 1) a m0 prev' m hma hs hr).imp id fun h2 => lt_trans h2 hmb
    have hF : ∀ prev', f m0 * f b < 0 →
        secantGo (fun _ => f) epsY epsX (n + 1) fuel (m0, b, prev') = .ret (some m) →
        a < m ∧ m < b := fun prev' hs hr =>
      (ih (n + 1) m0 b prev' m hmb hs hr).imp (fun h1 => lt_trans hma h1) id
    cases prev with
    | none =>
      by_cases hcp : n % 100 = 0 <;>
        simp only [hcp, ite_true, ite_false, if_true, if_false] at hret <;>
        split_ifs at hret <;>
        first
          | (exfalso; simp at hret; done)
          | (simp only [SecantResult.ret.injEq, Option.some.injEq] at hret;
             exact hret ▸ ⟨hma, hmb⟩)
          | exact hE _ (by assumption) hret
          | exact hF _ (by rw [mul_comm]; assumption) hret
    | some p =>
      by_cases hcp : n % 100 = 0
      · by_cases hpm : p = m0
        · simp only [hcp, hpm, ite_true, if_true] at hret
          exact absurd hret (by simp)
        · simp only [hcp, hpm, ite_true, ite_false, if_true, if_false] at hret
          split_ifs at hret <;>
            first
              | (exfalso; simp at hret; done)
              | (simp only [SecantResult.ret.injEq, Option.some.injEq] at hret;
                 exact hret ▸ ⟨hma, hmb⟩)
              | exact hE _ (by assumption) hret
              | exact hF _ (by rw [mul_comm]; assumption) hret
      · simp only [hcp, ite_true, ite_false, if_true, if_false] at hret
        split_ifs at hret <;>
          first
            | (exfalso; simp at hret; done)
            | (simp only [SecantResult.ret.injEq, Option.some.injEq] at hret;
               exact hret ▸ ⟨hma, hmb⟩)
            | exact hE _ (by assumption) hret
            | exact hF _ (by rw [mul_comm]; assumption) hret

theorem secant_mem (f : F → F) (a b : F) (N : ℕ) (epsY epsX : F) (m : F)
    (hab : a < b)
    (h : secant (fun _ => f) a b N epsY epsX = .ret (some m)) :
    a < m ∧ m < b := by
  rw [secant] at h
  by_cases hpc : f a * f b ≥ 0
  · rw [if_pos hpc] at h
    exact absurd h (by simp)
  · rw [if_neg hpc] at h
    exact secantGo_mem f epsY epsX N 1 a b none m hab (lt_of_not_ge hpc) h

theorem xirr_rate_mem (cf : List (ℤ × ℝ)) (g : ℚ) (silent : Bool) (r : ℝ)
    (h : xirr cf g silent = .ret (some r)) : 0 < r ∧ r < 10 := by
  rw [xirr] at h
  cases hsec : secant (fun _ => xirrF cf) 0 10 2000 (1 / 1000000) (1 / 1000000) with
  | ret o =>
    rw [hsec] at h
    have ho : o = some r := by
      cases o <;> simpa using h
    rw [ho] at hsec
    exact secant_mem (xirrF cf) 0 10 2000 (1 / 1000000) (1 / 1000000) r
      (by norm_num) hsec
  | stallDetected =>
    rw [hsec] at h
    cases silent <;> simp at h
  | divisionByZero =>
    rw [hsec] at h
    simp at h

theorem secant_linear_eval :
    secant (fun _ => fun x : ℝ => x - 1 / 2) 0 1 1 (1 / 1000000) 2 =
      .ret (some (1 / 2)) := by
  have hb := secant_ratCast (fun _ => fun x : ℝ => x - 1 / 2)
    (fun _ => fun q : ℚ => q - 1 / 2) (fun i q => by push_cast; ring) 0 1 1
    (1 / 1000000) 2
  norm_num at hb
  rw [hb, show secant (fun _ => fun q : ℚ => q - 1 / 2) 0 1 1 (1 / 1000000) 2 =
      .ret (some (1 / 2)) from by with_unfolding_all rfl]
  simp [SecantResult.map]

/-! The claims. -/

/-- C1, counterexample: the stall check does not compare consecutive
checkpoints.  With the crafted objective `stallCexObj` on the bracket
`[0, 4]` with `N = 301` and the default tolerances, the estimates at the
consecutive checkpoints 200 and 300 are both `1` and the run reaches
iteration 300 (so no stopping criterion or failure fires earlier), yet the
solver returns `None` instead of raising `StallDetected`; the estimate
recorded at iteration 100 is `2` and is never updated. -/
theorem c1_counterexample :
    secantIterM stallCexObj 0 4 301 (1 / 1000000) (1 / 1000000) 200 = some 1 ∧
    secantIterM stallCexObj 0 4 301 (1 / 1000000) (1 / 1000000) 300 = some 1 ∧
    secantIterM stallCexObj 0 4 301 (1 / 1000000) (1 / 1000000) 100 = some 2 ∧
    secant stallCexObj 0 4 301 (1 / 1000000) (1 / 1000000) = .ret none := by
  refine ⟨?_, ?_, ?_, ?_⟩ <;> with_unfolding_all rfl

/-- C1, amended: at every 100th iteration the estimate `m_n` is compared to
the estimate recorded at the FIRST checkpoint (iteration 100), which is
recorded once and never updated; whenever the run reaches iteration
`100 * k` (`k ≥ 2`) and the estimate computed there equals the estimate of
iteration 100, the solver raises `StallDetected`. -/
theorem c1_stall_first_checkpoint (f : ℕ → F → F) (a b : F) (N : ℕ)
    (epsY epsX : F) (k : ℕ) (q : F) (hk : 2 ≤ k)
    (h100 : secantIterM f a b N epsY epsX 100 = some q)
    (hk100 : secantIterM f a b N epsY epsX (100 * k) = some q) :
    secant f a b N epsY epsX = .stallDetected := by
  obtain ⟨x, y, pr, hst, hden, hest⟩ :=
    secantIterM_elim f a b N epsY epsX (100 * k) q hk100
  have hprev : pr = some q := by
    have h2 := secantState_prev_eq f a b N epsY epsX q h100 (100 * k)
      (by omega) (x, y, pr) hst
    simpa using h2
  subst hprev
  have hle : 100 * k ≤ N := secantState_le f a b N epsY epsX (100 * k) _ hst
  rw [secant_eq_go_of_state f a b N epsY epsX (100 * k) _ hst,
    show N + 1 - 100 * k = (N - 100 * k) + 1 from by omega, secantGo]
  have hit : secantIter f epsY epsX (100 * k) (x, y, some q) =
      .inl .stallDetected := by
    simp only [secantIter]
    rw [if_neg hden]
    have hcp : (100 * k) % 100 = 0 := Nat.mul_mod_right 100 k
    simp only [hcp, ite_true, if_true, hest]
  rw [hit]

/-- C1, witness for the amended theorem: the crafted objective
`stallWitObj` keeps the estimate at `2` forever, so the estimate at
checkpoint 200 equals the one recorded at iteration 100 and the solver
raises `StallDetected`. -/
theorem c1_witness :
    (2 : ℕ) ≤ 2 ∧
    secantIterM stallWitObj 0 4 200 (1 / 1000000) (1 / 1000000) 100 = some 2 ∧
    secantIterM stallWitObj 0 4 200 (1 / 1000000) (1 / 1000000) (100 * 2) = some 2 ∧
    secant stallWitObj 0 4 200 (1 / 1000000) (1 / 1000000) = .stallDetected :=
  ⟨by norm_num, by with_unfolding_all rfl, by with_unfolding_all rfl,
   c1_stall_first_checkpoint stallWitObj 0 4 200 (1 / 1000000) (1 / 1000000) 2 2
     (by norm_num) (by with_unfolding_all rfl) (by with_unfolding_all rfl)⟩

/-- C2, counterexample: scaling every amount by the positive constant
`1 / 10 ^ 10` changes the value computed by `xirr` on `cexSeries`: the
unscaled run exits through the `eps_y` tolerance at iteration 33 with the
rate `1 + 9 / 2 ^ 33`, while the scaled run already satisfies
`|f(m_1)| < eps_y` at iteration 1 and returns `11 / 2`. -/
theorem c2_counterexample :
    (0 : ℝ) < 1 / 10000000000 ∧
    xirr (scaleAmounts (1 / 10000000000) cexSeries) (1 / 10) false ≠
      xirr cexSeries (1 / 10) false := by
  refine ⟨by norm_num, ?_⟩
  rw [xirr_cexSeries_eval, xirr_cexSeries_scaled_eval]
  intro h
  simp only [SecantResult.ret.injEq, Option.some.injEq] at h
  have h2 := Rat.cast_inj.mp h
  norm_num [cexRoot] at h2

/-- C2, amended: the NPV objective built by `xirr` is homogeneous of degree
one in the amounts, and with the value tolerance `eps_y` disabled (set to
`0`) the solver is invariant under scaling the objective by a positive
constant; the only scale-sensitive part of the algorithm is the
`|f(m_n)| < eps_y` stopping test, through which scaling can change the
returned rate. -/
theorem c2_scaling_amended :
    (∀ (c r : ℝ) (cf : List (ℤ × ℝ)),
      xirrF (scaleAmounts c cf) r = c * xirrF cf r) ∧
    (∀ (f : ℕ → ℝ → ℝ) (a b : ℝ) (N : ℕ) (epsX c : ℝ), 0 < c →
      secant (fun i x => c * f i x) a b N 0 epsX = secant f a b N 0 epsX) :=
  ⟨fun c r cf => xirrF_scale c cf r,
   fun f a b N epsX c hc => secant_scale f a b N epsX c hc⟩

/-- C2, witness for the amended theorem at the objective `x ↦ x`, scaled by
`2`. -/
theorem c2_witness :
    (0 : ℝ) < 2 ∧
    secant (fun (i : ℕ) (x : ℝ) => 2 * (fun (_ : ℕ) (x : ℝ) => x) i x) 0 1 5 0 1 =
      secant (fun (_ : ℕ) (x : ℝ) => x) 0 1 5 0 1 :=
  ⟨two_pos, c2_scaling_amended.2 (fun _ x => x) 0 1 5 1 2 two_pos⟩

/-- C3: when `f(a) * f(b) ≥ 0` the solver returns `None` from its initial
check, before any iteration, and does not raise; consequently a series
whose NPV objective has a non-negative product at rates `0` and `10` makes
`xirr` return `None` without raising. -/
theorem c3_no_sign_change :
    (∀ (f : ℕ → F → F) (a b : F) (N : ℕ) (epsY epsX : F),
      f 0 a * f 1 b ≥ 0 → secant f a b N epsY epsX = .ret none) ∧
    (∀ (cf : List (ℤ × ℝ)) (g : ℚ) (silent : Bool),
      xirrF cf 0 * xirrF cf 10 ≥ 0 → xirr cf g silent = .ret none) := by
  constructor
  · intro f a b N epsY epsX h
    rw [secant, if_pos h]
  · intro cf g silent h
    rw [xirr]
    have hsec : secant (fun _ => xirrF cf) 0 10 2000 (1 / 1000000) (1 / 1000000) =
        .ret none := by
      rw [secant, if_pos h]
    rw [hsec]

/-- C3, witness: a constant positive objective at the solver level, and the
all-inflows series `[(0, 5), (365, 5)]` at the `xirr` level. -/
theorem c3_witness :
    ((fun (_ : ℕ) (_ : ℚ) => (1 : ℚ)) 0 0 * (fun (_ : ℕ) (_ : ℚ) => (1 : ℚ)) 1 2 ≥ 0 ∧
      secant (fun (_ : ℕ) (_ : ℚ) => (1 : ℚ)) 0 2 5 1 1 = .ret none) ∧
    (xirrF [((0 : ℤ), (5 : ℝ)), (365, 5)] 0 *
        xirrF [((0 : ℤ), (5 : ℝ)), (365, 5)] 10 ≥ 0 ∧
      xirr [((0 : ℤ), (5 : ℝ)), (365, 5)] (1 / 10) false = .ret none) := by
  have hprod : xirrF [((0 : ℤ), (5 : ℝ)), (365, 5)] 0 *
      xirrF [((0 : ℤ), (5 : ℝ)), (365, 5)] 10 ≥ 0 := by
    rw [xirrF_pair, xirrF_pair]
    norm_num
  exact ⟨⟨by norm_num, (@c3_no_sign_change ℚ _).1 (fun _ _ => 1) 0 2 5 1 1 (by norm_num)⟩,
    ⟨hprod, (@c3_no_sign_change ℝ _).2 [((0 : ℤ), (5 : ℝ)), (365, 5)] (1 / 10) false hprod⟩⟩

/-- C4: in any iteration that computes its estimate (nonzero denominator,
no stall raised), if neither stopping criterion holds and both bracket sign
products are non-negative, the solver returns `None` immediately. -/
theorem c4_inconsistent_signs (f : ℕ → F → F) (epsY epsX : F) (n fuel : ℕ)
    (a b : F) (prev : Option F)
    (hden : ¬ f (3 * n) b - f (3 * n - 1) a = 0)
    (hstall : n % 100 = 0 → ∀ p, prev = some p →
      p ≠ secantEstimate a b (f (3 * n - 1) a) (f (3 * n) b))
    (hex : ¬ |b - a| < epsX)
    (hey : ¬ |f (3 * n + 1) (secantEstimate a b (f (3 * n - 1) a) (f (3 * n) b))| < epsY)
    (hsa : 0 ≤ f (3 * n - 1) a *
      f (3 * n + 1) (secantEstimate a b (f (3 * n - 1) a) (f (3 * n) b)))
    (hsb : 0 ≤ f (3 * n) b *
      f (3 * n + 1) (secantEstimate a b (f (3 * n - 1) a) (f (3 * n) b))) :
    secantGo f epsY epsX n (fuel + 1) (a, b, prev) = .ret none := by
  have hsa' : ¬ f (3 * n - 1) a *
      f (3 * n + 1) (secantEstimate a b (f (3 * n - 1) a) (f (3 * n) b)) < 0 :=
    not_lt.mpr hsa
  have hsb' : ¬ f (3 * n) b *
      f (3 * n + 1) (secantEstimate a b (f (3 * n - 1) a) (f (3 * n) b)) < 0 :=
    not_lt.mpr hsb
  rw [secantGo]
  simp only [secantIter, hden, ite_false, if_false]
  cases prev with
  | none =>
    by_cases hcp : n % 100 = 0 <;>
      simp [hcp, hex, hey, hsa', hsb']
  | some p =>
    by_cases hcp : n % 100 = 0
    · have hpm : ¬ p = secantEstimate a b (f (3 * n - 1) a) (f (3 * n) b) :=
        hstall hcp p rfl
      simp [hcp, hpm, hex, hey, hsa', hsb']
    · simp [hcp, hex, hey, hsa', hsb']

/-- C4, witness: the objective `c4Obj` with interval `[0, 1]` at iteration
1: the estimate is `-1`, all sign products are positive and no tolerance
holds, so the loop exits with `None`. -/
theorem c4_witness :
    (¬ c4Obj (3 * 1) 1 - c4Obj (3 * 1 - 1) 0 = 0) ∧
    (¬ |(1 : ℚ) - 0| < (1 / 2 : ℚ)) ∧
    (¬ |c4Obj (3 * 1 + 1)
        (secantEstimate 0 1 (c4Obj (3 * 1 - 1) 0) (c4Obj (3 * 1) 1))| < (1 / 2 : ℚ)) ∧
    (0 ≤ c4Obj (3 * 1 - 1) 0 * c4Obj (3 * 1 + 1)
        (secantEstimate 0 1 (c4Obj (3 * 1 - 1) 0) (c4Obj (3 * 1) 1))) ∧
    (0 ≤ c4Obj (3 * 1) 1 * c4Obj (3 * 1 + 1)
        (secantEstimate 0 1 (c4Obj (3 * 1 - 1) 0) (c4Obj (3 * 1) 1))) ∧
    secantGo c4Obj (1 / 2) (1 / 2) 1 (5 + 1) ((0 : ℚ), 1, none) = .ret none :=
  ⟨by norm_num [c4Obj], by norm_num, by norm_num [c4Obj],
   by norm_num [c4Obj], by norm_num [c4Obj],
   c4_inconsistent_signs c4Obj (1 / 2) (1 / 2) 1 5 0 1 none
     (by norm_num [c4Obj]) (fun _ p hp => Option.noConfusion hp)
     (by norm_num) (by norm_num [c4Obj]) (by norm_num [c4Obj])
     (by norm_num [c4Obj])⟩

/-- C5: at rate `0` the NPV is exactly the sum of the amounts, for either
value of either flag. -/
theorem c5_npv_zero_rate (cashFlow : List (ℤ × ℝ)) (sorted_ dd : Bool)
    (hne : cashFlow ≠ []) :
    xnpv 0 cashFlow sorted_ dd = (cashFlow.map Prod.snd).sum :=
  xnpv_zero_rate cashFlow sorted_ dd

/-- C5, witness at a concrete two-entry series. -/
theorem c5_witness :
    ([((0 : ℤ), (3 : ℝ)), (730, 4)] ≠ ([] : List (ℤ × ℝ))) ∧
    xnpv 0 [((0 : ℤ), (3 : ℝ)), (730, 4)] false true =
      (([((0 : ℤ), (3 : ℝ)), (730, 4)]).map Prod.snd).sum :=
  ⟨by simp, c5_npv_zero_rate [((0 : ℤ), (3 : ℝ)), (730, 4)] false true (by simp)⟩

/-- C6: `xirr` is invariant under permuting the input series: the
orchestrator sorts by date, and entries sharing a date contribute
identically placed discount factors, so even their relative order does not
affect the NPV objective. -/
theorem c6_permutation (l₁ l₂ : List (ℤ × ℝ)) (g : ℚ) (silent : Bool)
    (hperm : l₁.Perm l₂) : xirr l₁ g silent = xirr l₂ g silent := by
  have hF : xirrF l₁ = xirrF l₂ := funext (xirrNormalize_perm l₁ l₂ hperm)
  rw [xirr, xirr, hF]

/-- C6, witness: swapping the two entries of a concrete series. -/
theorem c6_witness :
    ([((0 : ℤ), (1 : ℝ)), (365, -2)]).Perm [((365 : ℤ), (-2 : ℝ)), (0, 1)] ∧
    xirr [((0 : ℤ), (1 : ℝ)), (365, -2)] (1 / 10) false =
      xirr [((365 : ℤ), (-2 : ℝ)), (0, 1)] (1 / 10) false :=
  ⟨List.Perm.swap ((365 : ℤ), (-2 : ℝ)) ((0 : ℤ), (1 : ℝ)) [],
   c6_permutation _ _ (1 / 10) false
     (List.Perm.swap ((365 : ℤ), (-2 : ℝ)) ((0 : ℤ), (1 : ℝ)) [])⟩

/-- C7: a single-entry series has day offset `0`, so its NPV objective is
the constant function equal to the amount (in particular on all rates
above `-1`); the initial sign check then sees a non-negative product and
`xirr` returns `None` without raising. -/
theorem c7_single_entry (d : ℤ) (a : ℝ) (g : ℚ) (silent : Bool) (ha : a ≠ 0) :
    (∀ r : ℝ, -1 < r → xirrF [(d, a)] r = a) ∧
    xirr [(d, a)] g silent = .ret none := by
  constructor
  · intro r _
    exact xirrF_single d a r
  · rw [xirr]
    have hsec : secant (fun _ => xirrF [(d, a)]) 0 10 2000
        (1 / 1000000) (1 / 1000000) = .ret none := by
      have h : xirrF [(d, a)] 0 * xirrF [(d, a)] 10 ≥ 0 := by
        rw [xirrF_single, xirrF_single]
        exact mul_self_nonneg a
      rw [secant, if_pos h]
    rw [hsec]

/-- C7, witness at the single entry `(5, 3)`. -/
theorem c7_witness :
    (3 : ℝ) ≠ 0 ∧
    ((∀ r : ℝ, -1 < r → xirrF [((5 : ℤ), (3 : ℝ))] r = 3) ∧
      xirr [((5 : ℤ), (3 : ℝ))] (1 / 10) false = .ret none) :=
  ⟨by norm_num, c7_single_entry 5 3 (1 / 10) false (by norm_num)⟩

/-- C8: with `silent = false` the orchestrator returns exactly what the
solver produced (a `StallDetected` failure propagates); with
`silent = true` it returns the same outcome except that `StallDetected`
degrades to `None`.  In particular `silent` has no effect on any outcome
other than `StallDetected`. -/
theorem c8_silent_dispatch (cf : List (ℤ × ℝ)) (g : ℚ) :
    xirr cf g false =
      secant (fun _ => xirrF cf) 0 10 2000 (1 / 1000000) (1 / 1000000) ∧
    xirr cf g true =
      (match secant (fun _ => xirrF cf) 0 10 2000 (1 / 1000000) (1 / 1000000) with
        | .stallDetected => .ret none
        | r => r) := by
  constructor <;>
  · rw [xirr]
    cases secant (fun _ => xirrF cf) 0 10 2000 (1 / 1000000) (1 / 1000000) <;> rfl

/-- C9: the `guess` parameter of `xirr` is inert: it is accepted but never
read, so any two values give the same outcome. -/
theorem c9_guess_inert (cf : List (ℤ × ℝ)) (g₁ g₂ : ℚ) (silent : Bool) :
    xirr cf g₁ silent = xirr cf g₂ silent := rfl

/-- C10: bracket invariant: with opposite endpoint signs the secant
denominator is nonzero and the estimate lies strictly inside the interval;
any value the solver returns lies strictly inside the initial bracket, so
every rate `xirr` returns lies in `(0, 10)`. -/
theorem c10_bracket_invariant :
    (∀ (a b fa fb : ℝ), a < b → fa * fb < 0 →
      fb - fa ≠ 0 ∧ a < secantEstimate a b fa fb ∧ secantEstimate a b fa fb < b) ∧
    (∀ (f : ℝ → ℝ) (a b : ℝ) (N : ℕ) (epsY epsX : ℝ) (m : ℝ), a < b →
      secant (fun _ => f) a b N epsY epsX = .ret (some m) → a < m ∧ m < b) ∧
    (∀ (cf : List (ℤ × ℝ)) (g : ℚ) (silent : Bool) (r : ℝ),
      xirr cf g silent = .ret (some r) → 0 < r ∧ r < 10) :=
  ⟨fun a b fa fb hab hfs => secantEstimate_mem a b fa fb hab hfs,
   fun f a b N epsY epsX m hab h => secant_mem f a b N epsY epsX m hab h,
   fun cf g silent r h => xirr_rate_mem cf g silent r h⟩

/-- C10, witness: the estimate on `[0, 1]` with values `-1, 1`; a one-step
solver run returning `1 / 2 ∈ (0, 1)`; and the rate `xirr` computes on
`cexSeries`, which lies in `(0, 10)`. -/
theorem c10_witness :
    ((0 : ℝ) < 1 ∧ (-1 : ℝ) * 1 < 0 ∧
      ((1 : ℝ) - (-1) ≠ 0 ∧ 0 < secantEstimate (0 : ℝ) 1 (-1) 1 ∧
        secantEstimate (0 : ℝ) 1 (-1) 1 < 1)) ∧
    (secant (fun _ => fun x : ℝ => x - 1 / 2) 0 1 1 (1 / 1000000) 2 =
        .ret (some (1 / 2)) ∧
      ((0 : ℝ) < 1 / 2 ∧ (1 / 2 : ℝ) < 1)) ∧
    (xirr cexSeries (1 / 10) false = .ret (some ((cexRoot : ℚ) : ℝ)) ∧
      (0 < ((cexRoot : ℚ) : ℝ) ∧ ((cexRoot : ℚ) : ℝ) < 10)) :=
  ⟨⟨by norm_num, by norm_num,
    c10_bracket_invariant.1 0 1 (-1) 1 (by norm_num) (by norm_num)⟩,
   ⟨secant_linear_eval,
    c10_bracket_invariant.2.1 (fun x => x - 1 / 2) 0 1 1 (1 / 1000000) 2 (1 / 2)
      (by norm_num) secant_linear_eval⟩,
   ⟨xirr_cexSeries_eval (1 / 10) false,
    c10_bracket_invariant.2.2 cexSeries (1 / 10) false ((cexRoot : ℚ) : ℝ)
      (xirr_cexSeries_eval (1 / 10) false)⟩⟩
